import Mathlib

/-!
Verification development for the BookWorm Deluxe wordlist editor.

The repository stores its data in two flat text files handled by a pair of
codecs (a prefix-delta wordlist codec and a tab-delimited popdefs codec) that
live in the `bookworm_utils` module, which is not part of the sources at hand;
those two codecs are therefore modelled from the specification text.  The
editor operations on the in-memory word list and definitions mapping are
translated from `bookworm_wordlist_editor.pyw` (the revision in
`src/unnamed/part_000`).

Text is modelled as `List Char`; a word is a `List Char`; the definitions
mapping is an insertion-ordered association list, mirroring a Python `dict`.
-/

deriving instance DecidableEq for Except

namespace Bookworm

/-- One line of text: everything is `List Char` based. -/
abbrev Txt := List Char

/-- The lowercase ASCII letters. -/
def lowerChars : List Char :=
  ['a', 'b', 'c', 'd', 'e', 'f', 'g', 'h', 'i', 'j', 'k', 'l', 'm',
   'n', 'o', 'p', 'q', 'r', 's', 't', 'u', 'v', 'w', 'x', 'y', 'z']

/-- Is `c` a lowercase ASCII letter? -/
def isLowerAlpha (c : Char) : Prop := c ∈ lowerChars

instance (c : Char) : Decidable (isLowerAlpha c) :=
  inferInstanceAs (Decidable (c ∈ lowerChars))

/-- Is `c` horizontal or vertical whitespace (as stripped by Python `str.strip`)? -/
def isWs (c : Char) : Bool := c = ' ' || c = '\n' || c = '\t' || c = '\r'

/-- Remove leading and trailing whitespace, as Python `str.strip()` does. -/
def strip (l : Txt) : Txt :=
  ((l.dropWhile isWs).reverse.dropWhile isWs).reverse

/-- Split a text into its lines at newline characters (`str.splitlines` on
texts whose only line breaks are `'\n'`; a trailing newline yields a final
empty piece, which the callers filter away). -/
def splitNl : Txt → List Txt
  | [] => [[]]
  | c :: rest =>
    match splitNl rest with
    | [] => if c = '\n' then [[], []] else [[c]]
    | l :: ls => if c = '\n' then [] :: l :: ls else (c :: l) :: ls

/-- Join lines with single newline separators. -/
def joinLines : List Txt → Txt
  | [] => []
  | [l] => l
  | l :: ls => l ++ '\n' :: joinLines ls

/-- The non-blank lines of a text, in order. -/
def nonblankLines (text : Txt) : List Txt :=
  (splitNl text).filter (fun l => !l.isEmpty)

/-- The decimal digit character for `n < 10` (and '9' past that, unused). -/
def digitChar (n : Nat) : Char :=
  if n = 0 then '0' else if n = 1 then '1' else if n = 2 then '2'
  else if n = 3 then '3' else if n = 4 then '4' else if n = 5 then '5'
  else if n = 6 then '6' else if n = 7 then '7' else if n = 8 then '8' else '9'

/-- Numeric value of a decimal digit character. -/
def digitVal (c : Char) : Nat := c.toNat - 48

/-- Parse a string of decimal digits into a number (most significant first). -/
def parseNat (ds : Txt) : Nat := ds.foldl (fun n c => n * 10 + digitVal c) 0

/-- Decimal numeral writer, fuelled so that it is structurally recursive. -/
def toDecimalAux : Nat → Nat → Txt
  | 0, _ => []
  | fuel + 1, n =>
    if n < 10 then [digitChar n]
    else toDecimalAux fuel (n / 10) ++ [digitChar (n % 10)]

/-- The decimal numeral of `n`, most significant digit first. -/
def toDecimal (n : Nat) : Txt := toDecimalAux (n + 1) n

/-- Length of the longest common prefix of two character lists. -/
def lcp : Txt → Txt → Nat
  | a :: as, b :: bs => if a = b then lcp as bs + 1 else 0
  | _, _ => 0

/-- The leading decimal-digit run of a wordlist line. -/
def lineDigits (l : Txt) : Txt := l.takeWhile Char.isDigit

/-- The remainder of a wordlist line after its leading digit run. -/
def lineSuffix (l : Txt) : Txt := l.dropWhile Char.isDigit

/-- Modelled from the spec: the copy count in effect on a wordlist line: the
parsed leading numeral if one is present, otherwise the previously remembered
count (`bookworm_utils.unpack_wordlist` is not among the sources). -/
def effCopy (copy : Nat) (l : Txt) : Nat :=
  if lineDigits l = [] then copy else parseNat (lineDigits l)

/-- Decode failure for the wordlist format: the offending line's index among
the non-blank lines, and its raw content. -/
structure MalformedListing where
  lineNo : Nat
  content : Txt
deriving DecidableEq, Repr

/-- Modelled from the spec: is a wordlist line malformed, given the reversed
list of already decoded words and the remembered copy count?  True when a
nonzero copy count is in effect on the first decoded word, or when the
effective copy count exceeds the previous word's length. -/
def lineBad (acc : List Txt) (copy : Nat) (l : Txt) : Bool :=
  match acc with
  | [] => decide (effCopy copy l ≠ 0)
  | prev :: _ => decide (prev.length < effCopy copy l)

/-- Modelled from the spec: one decoding step in Python-slice (truncating)
semantics, used both by the decoder on well-formed lines and as the reference
run for the malformedness predicate.  State: reversed decoded words and the
remembered copy count. -/
def laxStep : List Txt × Nat → Txt → List Txt × Nat
  | (acc, copy), l =>
    match acc with
    | [] => ([lineSuffix l], effCopy copy l)
    | prev :: _ =>
      ((prev.take (effCopy copy l) ++ lineSuffix l) :: acc, effCopy copy l)

/-- The reference run of the truncating decoder over a list of lines. -/
def laxRun (s : List Txt × Nat) (ls : List Txt) : List Txt × Nat :=
  ls.foldl laxStep s

/-- Is line `k` of `ls` malformed in the run started from `(acc, copy)`? -/
def badAt (acc : List Txt) (copy : Nat) (ls : List Txt) (k : Nat) : Bool :=
  lineBad (laxRun (acc, copy) (ls.take k)).1 (laxRun (acc, copy) (ls.take k)).2
    (ls.getD k [])

/-- One step of the reference run over the raw (unfiltered) lines of the
text: a blank line is skipped without affecting the running state. -/
def laxStepRaw (s : List Txt × Nat) (l : Txt) : List Txt × Nat :=
  if l.isEmpty then s else laxStep s l

/-- The reference run of the truncating decoder over the raw lines of the
text, blank lines skipped. -/
def laxRunRaw (s : List Txt × Nat) (ls : List Txt) : List Txt × Nat :=
  ls.foldl laxStepRaw s

/-- Is raw line `k` of `ls` malformed in the run started from `(acc, copy)`?
Here `ls` is the text's full line list, blank lines included in the
indexing; a blank line is never malformed, since the decoder skips it. -/
def badAtRaw (acc : List Txt) (copy : Nat) (ls : List Txt) (k : Nat) : Bool :=
  !(ls.getD k []).isEmpty &&
    lineBad (laxRunRaw (acc, copy) (ls.take k)).1
      (laxRunRaw (acc, copy) (ls.take k)).2 (ls.getD k [])

/-- Modelled from the spec: the wordlist decoder's main loop
(`bookworm_utils.unpack_wordlist` is not among the sources).  Carries the
reversed list of decoded words, the remembered copy count and the index of the
current non-blank line; fails fast on the first malformed line. -/
def unpackGo : List Txt → Nat → Nat → List Txt →
    Except MalformedListing (List Txt)
  | acc, _, _, [] => .ok acc.reverse
  | acc, copy, idx, l :: rest =>
    if lineBad acc copy l then .error ⟨idx, l⟩
    else unpackGo (laxStep (acc, copy) l).1 (laxStep (acc, copy) l).2
      (idx + 1) rest

/-- Modelled from the spec: decode a wordlist text into the ordered list of
words (`bookworm_utils.unpack_wordlist` is not among the sources).  Blank
lines are skipped without affecting the running copy count. -/
def unpack_wordlist (text : Txt) : Except MalformedListing (List Txt) :=
  unpackGo [] 0 0 (nonblankLines text)

/-- Modelled from the spec: the wordlist encoder's loop over the words after
the first (`bookworm_utils.pack_wordlist` is not among the sources).  `prev`
is the literal previous element of the input list and `lastC` the copy count
used for the previous line; the numeral is emitted only when the new count
differs from it. -/
def packGo : Txt → Nat → List Txt → List Txt
  | _, _, [] => []
  | prev, lastC, w :: rest =>
    ((if lcp prev w = lastC then [] else toDecimal (lcp prev w))
      ++ w.drop (lcp prev w)) :: packGo w (lcp prev w) rest

/-- The lines of the wordlist encoding: the first word verbatim, then one
prefix-delta line per later word. -/
def packLines : List Txt → List Txt
  | [] => []
  | w :: rest => w :: packGo w 0 rest

/-- Modelled from the spec: encode an ordered word list into the wordlist text
(`bookworm_utils.pack_wordlist` is not among the sources): join the listing
lines with newlines and strip surrounding whitespace. -/
def pack_wordlist (ws : List Txt) : Txt :=
  strip (joinLines (packLines ws))

/-- The definitions mapping, as stored by a Python `dict`: an
insertion-ordered association list whose keys are unique. -/
abbrev Defs := List (Txt × Txt)

/-- ASCII uppercasing of a single character (Python `str.upper` restricted to
the characters the word-list data model allows). -/
def upChar : Char → Char
  | 'a' => 'A' | 'b' => 'B' | 'c' => 'C' | 'd' => 'D' | 'e' => 'E'
  | 'f' => 'F' | 'g' => 'G' | 'h' => 'H' | 'i' => 'I' | 'j' => 'J'
  | 'k' => 'K' | 'l' => 'L' | 'm' => 'M' | 'n' => 'N' | 'o' => 'O'
  | 'p' => 'P' | 'q' => 'Q' | 'r' => 'R' | 's' => 'S' | 't' => 'T'
  | 'u' => 'U' | 'v' => 'V' | 'w' => 'W' | 'x' => 'X' | 'y' => 'Y'
  | 'z' => 'Z' | c => c

/-- ASCII lowercasing of a single character (Python `str.lower` restricted to
the characters the word-list data model allows). -/
def lowChar : Char → Char
  | 'A' => 'a' | 'B' => 'b' | 'C' => 'c' | 'D' => 'd' | 'E' => 'e'
  | 'F' => 'f' | 'G' => 'g' | 'H' => 'h' | 'I' => 'i' | 'J' => 'j'
  | 'K' => 'k' | 'L' => 'l' | 'M' => 'm' | 'N' => 'n' | 'O' => 'o'
  | 'P' => 'p' | 'Q' => 'q' | 'R' => 'r' | 'S' => 's' | 'T' => 't'
  | 'U' => 'u' | 'V' => 'v' | 'W' => 'w' | 'X' => 'x' | 'Y' => 'y'
  | 'Z' => 'z' | c => c

/-- Uppercase a word. -/
def upWord (w : Txt) : Txt := w.map upChar

/-- Lowercase a word. -/
def lowWord (w : Txt) : Txt := w.map lowChar

/-- Split a popdefs line at its first tab character into key and value;
`none` when the line has no tab. -/
def splitFirstTab : Txt → Option (Txt × Txt)
  | [] => none
  | c :: rest =>
    if c = '\t' then some ([], rest)
    else
      match splitFirstTab rest with
      | none => none
      | some (k, v) => some (c :: k, v)

/-- Decode failure for the popdefs format: the offending line's index among
the non-blank lines, and its raw content. -/
structure MalformedRecord where
  lineNo : Nat
  content : Txt
deriving DecidableEq, Repr

/-- Modelled from the spec: is a popdefs line malformed?  True when it has no
tab separator or an empty key field. -/
def badPop (l : Txt) : Bool :=
  match splitFirstTab l with
  | none => true
  | some (k, _) => k.isEmpty

/-- Store a key/value pair in the mapping the way a Python `dict` assignment
does: overwrite the value in place if the key is present, else append. -/
def dictUpd : Defs → Txt → Txt → Defs
  | [], k, v => [(k, v)]
  | (k', v') :: rest, k, v =>
    if k' = k then (k', v) :: rest else (k', v') :: dictUpd rest k v

/-- Modelled from the spec: the popdefs decoder's main loop
(`bookworm_utils.unpack_popdefs` is not among the sources).  Splits each
non-blank line at its first tab, lowercases the key, stores last-write-wins,
and fails fast on the first malformed record. -/
def unpackPopGo : Defs → Nat → List Txt → Except MalformedRecord Defs
  | m, _, [] => .ok m
  | m, idx, l :: rest =>
    match splitFirstTab l with
    | none => .error ⟨idx, l⟩
    | some (k, v) =>
      if k.isEmpty then .error ⟨idx, l⟩
      else unpackPopGo (dictUpd m (lowWord k) v) (idx + 1) rest

/-- Modelled from the spec: decode a popdefs text into the definitions
mapping (`bookworm_utils.unpack_popdefs` is not among the sources). -/
def unpack_popdefs (text : Txt) : Except MalformedRecord Defs :=
  unpackPopGo [] 0 (nonblankLines text)

/-- Modelled from the spec: encode the definitions mapping as popdefs text
(`bookworm_utils.pack_popdefs` is not among the sources): for each entry in
caller order, the uppercased key, one tab, the definition verbatim, and a
line terminator. -/
def pack_popdefs (m : Defs) : Txt :=
  (m.map (fun kv => (upWord kv.1 ++ '\t' :: kv.2) ++ ['\n'])).flatten

/-- The (lowercased-key) records of a list of popdefs lines, in file order,
ignoring malformedness: the reference against which last-write-wins is
stated. -/
def entriesOf (ls : List Txt) : Defs :=
  ls.filterMap (fun l => (splitFirstTab l).map (fun kv => (lowWord kv.1, kv.2)))

/-- Remove a key from the mapping the way Python `del dict[k]` does (keys are
unique in a `dict`, so removing the first occurrence). -/
def dictDel : Defs → Txt → Defs
  | [], _ => []
  | (k', v') :: rest, k => if k' = k then rest else (k', v') :: dictDel rest k

/-- The words-list order used by the editor: Python `list.sort` /
`sorted` on strings, i.e. lexicographic order on the character lists. -/
def sortWords (ws : List Txt) : List Txt := List.insertionSort (· ≤ ·) ws

/-- A word list sorted in lexicographic ascending order. -/
def SortedW (ws : List Txt) : Prop := List.Sorted (· ≤ ·) ws

/-- From `Editor._load_files` (src/unnamed/part_000:586-591):
`self.words = sorted(bw.unpack_wordlist(f.read().strip()))`. -/
def load_words (text : Txt) : Except MalformedListing (List Txt) :=
  (unpack_wordlist (strip text)).map sortWords

/-- From `Editor.add_word` (src/unnamed/part_000:892-897): when the
binary-search membership test reports the word as new, append it and re-sort;
otherwise the list is untouched.  The test's outcome is abstracted as the
`isNew` flag. -/
def add_word (isNew : Bool) (ws : List Txt) (w : Txt) : List Txt :=
  if isNew then sortWords (ws ++ [w]) else ws

/-- From `Editor._mass_add_words` (src/unnamed/part_000:1058-1061):
`self.words += new_lenvalid_words; self.words.sort()`. -/
def mass_add_words (ws news : List Txt) : List Txt :=
  sortWords (ws ++ news)

/-- From `Editor.__delete_word` (src/unnamed/part_000:1150-1152), word-list
part: `self.words.remove(word)` (first occurrence) when the binary-search
test finds the word, else leave the list alone.  The test's outcome is
abstracted as the `found` flag. -/
def delete_word_list (found : Bool) (ws : List Txt) (w : Txt) : List Txt :=
  if found then ws.erase w else ws

/-- From `Editor._mass_delete_words` (src/unnamed/part_000:1109-1111): call
`__delete_word` on each word of the selection in turn. -/
def mass_delete_words (ws : List Txt) (dels : List (Txt × Bool)) : List Txt :=
  dels.foldl (fun a wb => delete_word_list wb.2 a wb.1) ws

/-- From `Editor._del_dupe_words` (src/unnamed/part_000:1249-1252):
`self.words = list(set(self.words)); self.words.sort()`.  The arbitrary
iteration order of the Python set is modelled by first-occurrence
deduplication. -/
def del_dupe_words (ws : List Txt) : List Txt :=
  sortWords ws.dedup

/-- The shared-prefix copy count the encoder uses for the listing line of the
word at index `i` (0 for the first line, which is emitted verbatim): the
length of the longest common prefix of the word and the literal previous
element of the input list. -/
def countAt (ws : List Txt) : Nat → Nat
  | 0 => 0
  | i + 1 => lcp (ws.getD i []) (ws.getD (i + 1) [])

/-- The editor's in-memory data: the word list and the definitions mapping. -/
structure EditorState where
  words : List Txt
  defs : Defs
deriving DecidableEq, Repr

/-- From `Editor.__delete_word` (src/unnamed/part_000:1142-1161): remove the
word from the word list when the binary-search test finds it (modelled from
the spec: `bookworm_utils.binary_search` is not among the sources; on the
sorted word list it reports whether the word is present, so it is modelled as
the membership test), and delete any popdef stored under the word. -/
def delete_word (st : EditorState) (w : Txt) : EditorState where
  words := if w ∈ st.words then st.words.erase w else st.words
  defs := if (st.defs.lookup w).isSome then dictDel st.defs w else st.defs

/-! ### Helper lemmas: characters and numerals -/

theorem lowerAlpha_facts : ∀ c ∈ lowerChars,
    c.isDigit = false ∧ c ≠ '\n' ∧ isWs c = false ∧ lowChar (upChar c) = c ∧
      upChar c ≠ '\t' ∧ upChar c ≠ '\n' := by decide

theorem isDigit_of_lower {c : Char} (h : isLowerAlpha c) : c.isDigit = false :=
  (lowerAlpha_facts c h).1

theorem ne_nl_of_lower {c : Char} (h : isLowerAlpha c) : c ≠ '\n' :=
  (lowerAlpha_facts c h).2.1

theorem isWs_of_lower {c : Char} (h : isLowerAlpha c) : isWs c = false :=
  (lowerAlpha_facts c h).2.2.1

theorem lowChar_upChar {c : Char} (h : isLowerAlpha c) : lowChar (upChar c) = c :=
  (lowerAlpha_facts c h).2.2.2.1

theorem upChar_ne_tab {c : Char} (h : isLowerAlpha c) : upChar c ≠ '\t' :=
  (lowerAlpha_facts c h).2.2.2.2.1

theorem upChar_ne_nl {c : Char} (h : isLowerAlpha c) : upChar c ≠ '\n' :=
  (lowerAlpha_facts c h).2.2.2.2.2

theorem digitChar_isDigit (n : Nat) : (digitChar n).isDigit = true := by
  unfold digitChar; split_ifs <;> decide

theorem digitVal_digitChar {n : Nat} (h : n < 10) : digitVal (digitChar n) = n := by
  interval_cases n <;> decide

theorem ne_nl_of_isDigit {c : Char} (h : c.isDigit = true) : c ≠ '\n' := by
  intro e; rw [e] at h; exact absurd h (by decide)

theorem isWs_of_isDigit {c : Char} (h : c.isDigit = true) : isWs c = false := by
  rcases eq_or_ne c ' ' with h1 | h1
  · subst h1; exact absurd h (by decide)
  rcases eq_or_ne c '\n' with h2 | h2
  · subst h2; exact absurd h (by decide)
  rcases eq_or_ne c '\t' with h3 | h3
  · subst h3; exact absurd h (by decide)
  rcases eq_or_ne c '\r' with h4 | h4
  · subst h4; exact absurd h (by decide)
  simp [isWs, h1, h2, h3, h4]

theorem parseNat_concat (a : Txt) (d : Char) :
    parseNat (a ++ [d]) = parseNat a * 10 + digitVal d := by
  simp [parseNat, List.foldl_append]

theorem toDecimalAux_spec (fuel : Nat) : ∀ n, n < fuel →
    parseNat (toDecimalAux fuel n) = n ∧ toDecimalAux fuel n ≠ [] ∧
      ∀ c ∈ toDecimalAux fuel n, c.isDigit = true := by
  induction fuel with
  | zero => intro n h; omega
  | succ fuel ih =>
    intro n h
    by_cases h10 : n < 10
    · refine ⟨?_, ?_, ?_⟩ <;> simp only [toDecimalAux, if_pos h10]
      · simp [parseNat, digitVal_digitChar h10]
      · simp
      · intro c hc
        rw [List.mem_singleton] at hc
        subst hc; exact digitChar_isDigit n
    · have hdiv : n / 10 < fuel := by omega
      obtain ⟨ih1, ih2, ih3⟩ := ih (n / 10) hdiv
      refine ⟨?_, ?_, ?_⟩ <;> simp only [toDecimalAux, if_neg h10]
      · rw [parseNat_concat, ih1, digitVal_digitChar (Nat.mod_lt n (by omega))]
        omega
      · simp
      · intro c hc
        rcases List.mem_append.mp hc with hc | hc
        · exact ih3 c hc
        · rw [List.mem_singleton] at hc
          subst hc; exact digitChar_isDigit _

theorem parseNat_toDecimal (n : Nat) : parseNat (toDecimal n) = n :=
  (toDecimalAux_spec _ n (by omega)).1

theorem toDecimal_ne_nil (n : Nat) : toDecimal n ≠ [] :=
  (toDecimalAux_spec _ n (by omega)).2.1

theorem toDecimal_digits (n : Nat) : ∀ c ∈ toDecimal n, c.isDigit = true :=
  (toDecimalAux_spec _ n (by omega)).2.2

/-! ### Helper lemmas: lines, joining, splitting, stripping -/

theorem splitNl_cons (c : Char) (rest : Txt) :
    splitNl (c :: rest) =
      match splitNl rest with
      | [] => if c = '\n' then [[], []] else [[c]]
      | l :: ls => if c = '\n' then [] :: l :: ls else (c :: l) :: ls := rfl

theorem joinLines_cons_cons (l m : Txt) (ls : List Txt) :
    joinLines (l :: m :: ls) = l ++ '\n' :: joinLines (m :: ls) := rfl

theorem splitNl_ne_nil (l : Txt) : splitNl l ≠ [] := by
  cases l with
  | nil => simp [splitNl]
  | cons c rest =>
    rw [splitNl_cons]
    cases splitNl rest with
    | nil => dsimp only; split <;> simp
    | cons a as => dsimp only; split <;> simp

theorem splitNl_no_nl {l : Txt} (h : '\n' ∉ l) : splitNl l = [l] := by
  induction l with
  | nil => rfl
  | cons c rest ih =>
    have hc : ¬(c = '\n') := fun e => h (by simp [e])
    have hr : '\n' ∉ rest := fun m => h (List.mem_cons_of_mem _ m)
    rw [splitNl_cons, ih hr]
    simp [hc]

theorem splitNl_append_nl {l t : Txt} (h : '\n' ∉ l) :
    splitNl (l ++ '\n' :: t) = l :: splitNl t := by
  induction l with
  | nil =>
    rw [List.nil_append, splitNl_cons]
    cases hs : splitNl t with
    | nil => exact absurd hs (splitNl_ne_nil t)
    | cons a as => simp
  | cons c rest ih =>
    have hc : ¬(c = '\n') := fun e => h (by simp [e])
    have hr : '\n' ∉ rest := fun m => h (List.mem_cons_of_mem _ m)
    rw [List.cons_append, splitNl_cons, ih hr]
    simp [hc]

theorem splitNl_joinLines : ∀ (ls : List Txt), ls ≠ [] →
    (∀ l ∈ ls, '\n' ∉ l) → splitNl (joinLines ls) = ls
  | [], h, _ => absurd rfl h
  | [l], _, hnl => by
    rw [joinLines, splitNl_no_nl (hnl l (by simp))]
  | l :: m :: ls, _, hnl => by
    rw [joinLines_cons_cons, splitNl_append_nl (hnl l (by simp)),
      splitNl_joinLines (m :: ls) (List.cons_ne_nil _ _)
        (fun x hx => hnl x (by simp [hx]))]

theorem dropWhile_eq_self_of_head {p : Char → Bool} {l : Txt}
    (h : ∀ c, l.head? = some c → p c = false) : l.dropWhile p = l := by
  cases l with
  | nil => rfl
  | cons c rest => rw [List.dropWhile_cons, h c rfl]; simp

theorem strip_eq_self {l : Txt}
    (h1 : ∀ c, l.head? = some c → isWs c = false)
    (h2 : ∀ c, l.getLast? = some c → isWs c = false) : strip l = l := by
  unfold strip
  rw [dropWhile_eq_self_of_head h1,
    dropWhile_eq_self_of_head (fun c hc => h2 c (by rwa [List.head?_reverse] at hc)),
    List.reverse_reverse]

theorem joinLines_head? {l : Txt} (ls : List Txt) (h : l ≠ []) :
    (joinLines (l :: ls)).head? = l.head? := by
  cases ls with
  | nil => rfl
  | cons m ms =>
    rw [joinLines_cons_cons]
    cases l with
    | nil => exact absurd rfl h
    | cons c rest => simp

theorem joinLines_ne_nil {ls : List Txt} (hne : ls ≠ [])
    (h : ∀ l ∈ ls, l ≠ []) : joinLines ls ≠ [] := by
  cases ls with
  | nil => exact absurd rfl hne
  | cons l ms =>
    cases ms with
    | nil => exact h l (by simp)
    | cons m ms' =>
      rw [joinLines_cons_cons]
      have := h l (by simp)
      simp [this]

theorem joinLines_getLast? : ∀ (ls : List Txt), ls ≠ [] → (∀ l ∈ ls, l ≠ []) →
    ∃ l', ls.getLast? = some l' ∧ (joinLines ls).getLast? = l'.getLast?
  | [], h, _ => absurd rfl h
  | [l], _, _ => ⟨l, rfl, rfl⟩
  | l :: m :: ls, _, h => by
    obtain ⟨l', hl1, hl2⟩ :=
      joinLines_getLast? (m :: ls) (List.cons_ne_nil _ _)
        (fun x hx => h x (by simp [hx]))
    refine ⟨l', ?_, ?_⟩
    · rwa [List.getLast?_cons_cons]
    · rw [joinLines_cons_cons, List.getLast?_append_of_ne_nil l (by simp)]
      cases hjoin : joinLines (m :: ls) with
      | nil =>
        exact absurd hjoin (joinLines_ne_nil (List.cons_ne_nil _ _)
          (fun x hx => h x (by simp [hx])))
      | cons j js =>
        rw [hjoin] at hl2
        rw [List.getLast?_cons_cons]
        exact hl2

/-! ### Helper lemmas: longest common prefixes and listing lines -/

theorem lcp_le_left : ∀ a b : Txt, lcp a b ≤ a.length
  | [], _ => by simp [lcp]
  | _ :: _, [] => by simp [lcp]
  | a :: as, b :: bs => by
    rw [lcp]
    split
    · simpa using lcp_le_left as bs
    · simp

theorem lcp_le_right : ∀ a b : Txt, lcp a b ≤ b.length
  | [], _ => by simp [lcp]
  | _ :: _, [] => by simp [lcp]
  | a :: as, b :: bs => by
    rw [lcp]
    split
    · simpa using lcp_le_right as bs
    · simp

theorem take_lcp : ∀ a b : Txt, a.take (lcp a b) = b.take (lcp a b)
  | [], b => by simp [lcp]
  | a :: as, [] => by simp [lcp]
  | a :: as, b :: bs => by
    rw [lcp]
    split
    · next h => rw [List.take_succ_cons, List.take_succ_cons, take_lcp as bs, h]
    · simp

theorem digits_split {ds sfx : Txt} (hd : ∀ c ∈ ds, c.isDigit = true)
    (hs : ∀ c, sfx.head? = some c → c.isDigit = false) :
    (ds ++ sfx).takeWhile Char.isDigit = ds ∧
      (ds ++ sfx).dropWhile Char.isDigit = sfx := by
  induction ds with
  | nil =>
    simp only [List.nil_append]
    cases sfx with
    | nil => simp
    | cons c rest =>
      have := hs c rfl
      simp [List.takeWhile_cons, List.dropWhile_cons, this]
  | cons d ds ih =>
    have hdd := hd d (by simp)
    have ih' := ih (fun c hc => hd c (by simp [hc]))
    simp [List.takeWhile_cons, List.dropWhile_cons, hdd, ih'.1, ih'.2]

/-- Splitting an encoded listing line back into its effective copy count and
suffix: the numeral (when present) parses to the encoder's shared-prefix
count, and an omitted numeral leaves the remembered count, which then equals
the encoder's count. -/
theorem enc_line_split {lastC c : Nat} {sfx : Txt}
    (hs : ∀ ch, sfx.head? = some ch → ch.isDigit = false) :
    effCopy lastC ((if c = lastC then [] else toDecimal c) ++ sfx) = c ∧
      lineSuffix ((if c = lastC then [] else toDecimal c) ++ sfx) = sfx := by
  by_cases hc : c = lastC
  · rw [if_pos hc, List.nil_append]
    obtain ⟨h1, h2⟩ := @digits_split [] sfx (by simp) hs
    rw [List.nil_append] at h1 h2
    refine ⟨?_, ?_⟩
    · rw [effCopy, lineDigits, h1, if_pos rfl, hc]
    · rw [lineSuffix, h2]
  · rw [if_neg hc]
    obtain ⟨h1, h2⟩ := digits_split (toDecimal_digits c) hs
    refine ⟨?_, h2⟩
    rw [effCopy, lineDigits, h1, if_neg (toDecimal_ne_nil c), parseNat_toDecimal]

theorem drop_head_lower {w : Txt} (hlow : ∀ c ∈ w, isLowerAlpha c) (n : Nat) :
    ∀ ch, (w.drop n).head? = some ch → ch.isDigit = false :=
  fun ch h =>
    isDigit_of_lower (hlow ch (List.mem_of_mem_drop (List.mem_of_mem_head? h)))

/-- The decoder inverts the encoder line by line: starting from any reversed
accumulator whose head is the literal previous word, decoding the lines the
encoder produced extends the accumulator by exactly the remaining words. -/
theorem unpackGo_packGo : ∀ (rest : List Txt) (prev : Txt) (lastC : Nat)
    (acc : List Txt) (idx : Nat),
    acc.head? = some prev →
    (∀ w ∈ rest, ∀ c ∈ w, isLowerAlpha c) →
    List.Chain (fun p c => lcp p c < c.length) prev rest →
    unpackGo acc lastC idx (packGo prev lastC rest) = .ok (acc.reverse ++ rest)
  | [], prev, lastC, acc, idx, _, _, _ => by simp [packGo, unpackGo]
  | w :: rest, prev, lastC, acc, idx, hacc, hlow, hch => by
    rw [List.chain_cons] at hch
    obtain ⟨hcw, hch'⟩ := hch
    have hlw : ∀ c ∈ w, isLowerAlpha c := hlow w (by simp)
    obtain ⟨heff, hsfx⟩ :=
      @enc_line_split lastC (lcp prev w) (w.drop (lcp prev w))
        (drop_head_lower hlw _)
    cases acc with
    | nil => exact absurd hacc (by simp)
    | cons p0 acct =>
    rw [show p0 = prev from by simpa using hacc]
    rw [packGo, unpackGo]
    have hbad : lineBad (prev :: acct) lastC
        ((if lcp prev w = lastC then [] else toDecimal (lcp prev w))
          ++ w.drop (lcp prev w)) = false := by
      simp only [lineBad, heff, decide_eq_false_iff_not, not_lt]
      exact lcp_le_left prev w
    rw [hbad]
    simp only [Bool.false_eq_true, if_false, laxStep]
    simp only [heff, hsfx]
    rw [take_lcp prev w, List.take_append_drop]
    rw [unpackGo_packGo rest w (lcp prev w) (w :: prev :: acct) (idx + 1)
      (by simp) (fun x hx => hlow x (by simp [hx])) hch']
    simp

/-- Every character of every encoder-produced listing line is a decimal digit
or a lowercase letter. -/
theorem packGo_chars : ∀ (rest : List Txt) (prev : Txt) (lastC : Nat),
    (∀ w ∈ rest, ∀ c ∈ w, isLowerAlpha c) →
    ∀ l ∈ packGo prev lastC rest, ∀ ch ∈ l, ch.isDigit = true ∨ isLowerAlpha ch
  | [], _, _, _, l, hl => absurd hl (by simp [packGo])
  | w :: rest, prev, lastC, hlow, l, hl => by
    rw [packGo] at hl
    rcases List.mem_cons.mp hl with hl | hl
    · subst hl
      intro ch hch
      rcases List.mem_append.mp hch with hch | hch
      · left
        rcases em (lcp prev w = lastC) with hc | hc
        · rw [if_pos hc] at hch; exact absurd hch (by simp)
        · rw [if_neg hc] at hch; exact toDecimal_digits _ ch hch
      · right
        exact hlow w (by simp) ch (List.mem_of_mem_drop hch)
    · exact packGo_chars rest w (lcp prev w) (fun x hx => hlow x (by simp [hx]))
        l hl

theorem packGo_ne_nil : ∀ (rest : List Txt) (prev : Txt) (lastC : Nat),
    List.Chain (fun p c => lcp p c < c.length) prev rest →
    ∀ l ∈ packGo prev lastC rest, l ≠ []
  | [], _, _, _, l, hl => absurd hl (by simp [packGo])
  | w :: rest, prev, lastC, hch, l, hl => by
    rw [List.chain_cons] at hch
    rw [packGo] at hl
    rcases List.mem_cons.mp hl with hl | hl
    · subst hl
      have : (w.drop (lcp prev w)).length > 0 := by
        rw [List.length_drop]
        omega
      intro he
      rw [List.append_eq_nil] at he
      rw [he.2] at this
      simp at this
    · exact packGo_ne_nil rest w (lcp prev w) hch.2 l hl

/-! ### Helper lemmas: the decoder's error behaviour -/

theorem badAt_zero (acc : List Txt) (copy : Nat) (l : Txt) (rest : List Txt) :
    badAt acc copy (l :: rest) 0 = lineBad acc copy l := by
  simp [badAt, laxRun]

theorem badAt_succ (acc : List Txt) (copy : Nat) (l : Txt) (rest : List Txt)
    (k : Nat) :
    badAt acc copy (l :: rest) (k + 1) =
      badAt (laxStep (acc, copy) l).1 (laxStep (acc, copy) l).2 rest k := by
  simp [badAt, laxRun, List.take_succ_cons]

theorem unpackGo_error_iff : ∀ (ls acc : List Txt) (copy idx : Nat),
    (∃ e, unpackGo acc copy idx ls = .error e) ↔
      (∃ k, k < ls.length ∧ badAt acc copy ls k = true)
  | [], acc, copy, idx => by simp [unpackGo]
  | l :: rest, acc, copy, idx => by
    rw [unpackGo]
    by_cases hb : lineBad acc copy l = true
    · rw [if_pos hb]
      constructor
      · intro _
        exact ⟨0, by simp, by rwa [badAt_zero]⟩
      · intro _
        exact ⟨⟨idx, l⟩, rfl⟩
    · rw [if_neg hb]
      rw [unpackGo_error_iff rest _ _ (idx + 1)]
      constructor
      · rintro ⟨k, hk, hbad⟩
        exact ⟨k + 1, by simpa using hk, by rwa [badAt_succ]⟩
      · rintro ⟨k, hk, hbad⟩
        cases k with
        | zero => rw [badAt_zero] at hbad; exact absurd hbad hb
        | succ k =>
          exact ⟨k, by simpa using hk, by rwa [badAt_succ] at hbad⟩

theorem unpackGo_error_first : ∀ (ls acc : List Txt) (copy idx : Nat)
    (e : MalformedListing), unpackGo acc copy idx ls = .error e →
    ∃ k, e.lineNo = idx + k ∧ k < ls.length ∧ badAt acc copy ls k = true ∧
      (∀ j, j < k → badAt acc copy ls j = false) ∧ e.content = ls.getD k []
  | [], acc, copy, idx, e => by simp [unpackGo]
  | l :: rest, acc, copy, idx, e => by
    rw [unpackGo]
    by_cases hb : lineBad acc copy l = true
    · rw [if_pos hb]
      intro he
      have he' : e = ⟨idx, l⟩ := by
        cases he
        rfl
      subst he'
      exact ⟨0, by simp, by simp, by rwa [badAt_zero], by omega, by simp⟩
    · rw [if_neg hb]
      intro he
      obtain ⟨k, h1, h2, h3, h4, h5⟩ :=
        unpackGo_error_first rest _ _ (idx + 1) e he
      refine ⟨k + 1, by omega, by simpa using h2, by rwa [badAt_succ], ?_, ?_⟩
      · intro j hj
        cases j with
        | zero =>
          rw [badAt_zero]
          exact eq_false_of_ne_true hb
        | succ j =>
          rw [badAt_succ]
          exact h4 j (by omega)
      · simpa using h5

theorem badAtRaw_zero (acc : List Txt) (copy : Nat) (l : Txt)
    (rest : List Txt) :
    badAtRaw acc copy (l :: rest) 0 = (!l.isEmpty && lineBad acc copy l) := by
  simp [badAtRaw, laxRunRaw]

theorem badAtRaw_succ (acc : List Txt) (copy : Nat) (l : Txt)
    (rest : List Txt) (k : Nat) :
    badAtRaw acc copy (l :: rest) (k + 1) =
      badAtRaw (laxStepRaw (acc, copy) l).1 (laxStepRaw (acc, copy) l).2
        rest k := by
  simp [badAtRaw, laxRunRaw, List.take_succ_cons]

/-- A malformed line exists among the decoder's non-blank lines exactly when
one exists among the raw lines: blank lines are never malformed and do not
disturb the running state. -/
theorem badAt_filter_iff : ∀ (ls acc : List Txt) (copy : Nat),
    (∃ k, k < (ls.filter (fun l => !l.isEmpty)).length ∧
      badAt acc copy (ls.filter (fun l => !l.isEmpty)) k = true) ↔
    (∃ k, k < ls.length ∧ badAtRaw acc copy ls k = true)
  | [], acc, copy => by simp
  | l :: rest, acc, copy => by
    by_cases hb : l.isEmpty = true
    · have hfil : (l :: rest).filter (fun l => !l.isEmpty) =
          rest.filter (fun l => !l.isEmpty) := by
        simp [List.filter_cons, hb]
      have hstep : laxStepRaw (acc, copy) l = (acc, copy) := by
        rw [laxStepRaw, if_pos hb]
      rw [hfil, badAt_filter_iff rest acc copy]
      constructor
      · rintro ⟨k, hk, hbad⟩
        refine ⟨k + 1, by simpa using hk, ?_⟩
        rw [badAtRaw_succ, hstep]
        exact hbad
      · rintro ⟨k, hk, hbad⟩
        cases k with
        | zero =>
          rw [badAtRaw_zero, hb] at hbad
          simp at hbad
        | succ j =>
          rw [badAtRaw_succ, hstep] at hbad
          exact ⟨j, by simpa using hk, hbad⟩
    · have hb' : l.isEmpty = false := eq_false_of_ne_true hb
      have hfil : (l :: rest).filter (fun l => !l.isEmpty) =
          l :: rest.filter (fun l => !l.isEmpty) := by
        simp [List.filter_cons, hb']
      have hstep : laxStepRaw (acc, copy) l = laxStep (acc, copy) l := by
        rw [laxStepRaw, if_neg hb]
      rw [hfil]
      constructor
      · rintro ⟨k, hk, hbad⟩
        cases k with
        | zero =>
          rw [badAt_zero] at hbad
          refine ⟨0, by simp, ?_⟩
          rw [badAtRaw_zero, hbad, hb']
          rfl
        | succ j =>
          rw [badAt_succ] at hbad
          obtain ⟨k', hk', hbad'⟩ :=
            (badAt_filter_iff rest _ _).mp ⟨j, by simpa using hk, hbad⟩
          refine ⟨k' + 1, by simpa using hk', ?_⟩
          rw [badAtRaw_succ, hstep]
          exact hbad'
      · rintro ⟨k, hk, hbad⟩
        cases k with
        | zero =>
          rw [badAtRaw_zero] at hbad
          simp only [Bool.and_eq_true] at hbad
          refine ⟨0, by simp, ?_⟩
          rw [badAt_zero]
          exact hbad.2
        | succ j =>
          rw [badAtRaw_succ, hstep] at hbad
          obtain ⟨k', hk', hbad'⟩ :=
            (badAt_filter_iff rest _ _).mpr ⟨j, by simpa using hk, hbad⟩
          refine ⟨k' + 1, by simpa using hk', ?_⟩
          rw [badAt_succ]
          exact hbad'

/-- Raw-line version of the fail-fast property: the reported error sits at
the first malformed raw line (blank lines included in the indexing, never
malformed themselves), carries that line's content, and its line number is
the count of non-blank lines strictly before it. -/
theorem unpackGo_error_first_raw : ∀ (ls acc : List Txt) (copy idx : Nat)
    (e : MalformedListing),
    unpackGo acc copy idx (ls.filter (fun l => !l.isEmpty)) = .error e →
    ∃ k, k < ls.length ∧ badAtRaw acc copy ls k = true ∧
      (∀ j, j < k → badAtRaw acc copy ls j = false) ∧
      e.content = ls.getD k [] ∧
      e.lineNo = idx + ((ls.take k).filter (fun l => !l.isEmpty)).length
  | [], acc, copy, idx, e => by simp [unpackGo]
  | l :: rest, acc, copy, idx, e => by
    by_cases hb : l.isEmpty = true
    · have hfil : (l :: rest).filter (fun l => !l.isEmpty) =
          rest.filter (fun l => !l.isEmpty) := by
        simp [List.filter_cons, hb]
      have hstep : laxStepRaw (acc, copy) l = (acc, copy) := by
        rw [laxStepRaw, if_pos hb]
      rw [hfil]
      intro he
      obtain ⟨k, h1, h2, h3, h4, h5⟩ :=
        unpackGo_error_first_raw rest acc copy idx e he
      refine ⟨k + 1, by simpa using h1, ?_, ?_, by simpa using h4, ?_⟩
      · rw [badAtRaw_succ, hstep]
        exact h2
      · intro j hj
        cases j with
        | zero =>
          rw [badAtRaw_zero, hb]
          rfl
        | succ j' =>
          rw [badAtRaw_succ, hstep]
          exact h3 j' (by omega)
      · rw [h5, List.take_succ_cons, List.filter_cons]
        simp [hb]
    · have hb' : l.isEmpty = false := eq_false_of_ne_true hb
      have hfil : (l :: rest).filter (fun l => !l.isEmpty) =
          l :: rest.filter (fun l => !l.isEmpty) := by
        simp [List.filter_cons, hb']
      have hstep : laxStepRaw (acc, copy) l = laxStep (acc, copy) l := by
        rw [laxStepRaw, if_neg hb]
      rw [hfil, unpackGo]
      by_cases hlb : lineBad acc copy l = true
      · rw [if_pos hlb]
        intro he
        have he' : e = ⟨idx, l⟩ := by
          cases he
          rfl
        subst he'
        refine ⟨0, by simp, ?_, by omega, by simp, by simp⟩
        rw [badAtRaw_zero, hlb, hb']
        rfl
      · rw [if_neg hlb]
        intro he
        obtain ⟨k, h1, h2, h3, h4, h5⟩ :=
          unpackGo_error_first_raw rest _ _ (idx + 1) e he
        refine ⟨k + 1, by simpa using h1, ?_, ?_, by simpa using h4, ?_⟩
        · rw [badAtRaw_succ, hstep]
          exact h2
        · intro j hj
          cases j with
          | zero =>
            rw [badAtRaw_zero, eq_false_of_ne_true hlb]
            simp
          | succ j' =>
            rw [badAtRaw_succ, hstep]
            exact h3 j' (by omega)
        · rw [h5, List.take_succ_cons, List.filter_cons]
          have hpl : (fun l : Txt => !l.isEmpty) l = true := by simp [hb']
          rw [if_pos hpl, List.length_cons]
          omega

/-! ### Helper lemmas: the encoder's lines in closed indexed form -/

theorem packGo_getD : ∀ (rest : List Txt) (prev : Txt) (lastC i : Nat),
    i < rest.length →
    (packGo prev lastC rest).getD i [] =
      (if lcp ((prev :: rest).getD i []) (rest.getD i []) =
          (if i = 0 then lastC
            else lcp ((prev :: rest).getD (i - 1) []) (rest.getD (i - 1) []))
        then []
        else toDecimal (lcp ((prev :: rest).getD i []) (rest.getD i [])))
      ++ (rest.getD i []).drop (lcp ((prev :: rest).getD i []) (rest.getD i []))
  | [], _, _, i, h => absurd h (by simp)
  | w :: rest', prev, lastC, 0, _ => by simp [packGo]
  | w :: rest', prev, lastC, i + 1, h => by
    have h' : i < rest'.length := by simpa using h
    rw [packGo, List.getD_cons_succ, packGo_getD rest' w (lcp prev w) i h']
    cases i with
    | zero => simp
    | succ j => simp [List.getD_cons_succ]

/-! ### Helper lemmas: the popdefs codec -/

theorem splitFirstTab_cons (c : Char) (rest : Txt) :
    splitFirstTab (c :: rest) =
      if c = '\t' then some ([], rest)
      else
        match splitFirstTab rest with
        | none => none
        | some (k, v) => some (c :: k, v) := rfl

theorem splitFirstTab_append : ∀ (k : Txt), '\t' ∉ k → ∀ v : Txt,
    splitFirstTab (k ++ '\t' :: v) = some (k, v)
  | [], _, v => by simp [splitFirstTab]
  | c :: rest, hk, v => by
    have hc : ¬(c = '\t') := fun e => hk (by simp [e])
    have hr : '\t' ∉ rest := fun m => hk (List.mem_cons_of_mem _ m)
    rw [List.cons_append, splitFirstTab_cons, if_neg hc,
      splitFirstTab_append rest hr v]

theorem lowWord_upWord : ∀ (w : Txt), (∀ c ∈ w, isLowerAlpha c) →
    lowWord (upWord w) = w
  | [], _ => rfl
  | c :: rest, h => by
    rw [upWord, lowWord, List.map_cons, List.map_cons,
      lowChar_upChar (h c (by simp))]
    have := lowWord_upWord rest (fun x hx => h x (by simp [hx]))
    rw [lowWord, upWord] at this
    rw [this]

theorem upWord_no_tab {w : Txt} (h : ∀ c ∈ w, isLowerAlpha c) :
    '\t' ∉ upWord w := by
  intro hm
  rw [upWord, List.mem_map] at hm
  obtain ⟨c, hc, he⟩ := hm
  exact upChar_ne_tab (h c hc) he

theorem upWord_no_nl {w : Txt} (h : ∀ c ∈ w, isLowerAlpha c) :
    '\n' ∉ upWord w := by
  intro hm
  rw [upWord, List.mem_map] at hm
  obtain ⟨c, hc, he⟩ := hm
  exact upChar_ne_nl (h c hc) he

theorem splitNl_flatten_nl : ∀ (ls : List Txt), (∀ l ∈ ls, '\n' ∉ l) →
    splitNl ((ls.map (fun l => l ++ ['\n'])).flatten) = ls ++ [[]]
  | [], _ => rfl
  | l :: rest, h => by
    rw [List.map_cons, List.flatten_cons]
    have ha : (l ++ ['\n']) ++ ((rest.map (fun l => l ++ ['\n'])).flatten)
        = l ++ '\n' :: ((rest.map (fun l => l ++ ['\n'])).flatten) := by simp
    rw [ha, splitNl_append_nl (h l (by simp)),
      splitNl_flatten_nl rest (fun x hx => h x (by simp [hx]))]
    rfl

theorem dictUpd_fresh : ∀ (m : Defs) (k : Txt) (v : Txt),
    (∀ kv ∈ m, kv.1 ≠ k) → dictUpd m k v = m ++ [(k, v)]
  | [], _, _, _ => rfl
  | (k', v') :: rest, k, v, h => by
    rw [dictUpd, if_neg (h (k', v') (by simp)),
      dictUpd_fresh rest k v (fun kv hkv => h kv (by simp [hkv]))]
    rfl

theorem lookup_dictUpd_self : ∀ (m : Defs) (k v : Txt),
    (dictUpd m k v).lookup k = some v
  | [], k, v => by simp [dictUpd, List.lookup]
  | (k', v') :: rest, k, v => by
    by_cases h : k' = k
    · rw [dictUpd, if_pos h, List.lookup, h]
      simp
    · rw [dictUpd, if_neg h, List.lookup]
      have hne : (k == k') = false := by
        rw [beq_eq_false_iff_ne]
        exact fun e => h e.symm
      rw [hne]
      exact lookup_dictUpd_self rest k v

theorem lookup_dictUpd_other : ∀ (m : Defs) (k v key : Txt), key ≠ k →
    (dictUpd m k v).lookup key = m.lookup key
  | [], k, v, key, h => by
    simp [dictUpd, List.lookup, beq_eq_false_iff_ne.mpr h]
  | (k', v') :: rest, k, v, key, h => by
    by_cases hk : k' = k
    · rw [dictUpd, if_pos hk, List.lookup, List.lookup]
      by_cases hkey : (key == k') = true
      · rw [beq_iff_eq] at hkey
        exact absurd (hkey.trans hk) h
      · rw [Bool.not_eq_true] at hkey
        rw [hkey]
    · rw [dictUpd, if_neg hk, List.lookup, List.lookup]
      cases hkey : (key == k') with
      | true => rfl
      | false => exact lookup_dictUpd_other rest k v key h

theorem lookup_eq_none_of_keys : ∀ (m : Defs) (key : Txt),
    (∀ kv ∈ m, kv.1 ≠ key) → m.lookup key = none
  | [], _, _ => rfl
  | (k', v') :: rest, key, h => by
    rw [List.lookup]
    have : (key == k') = false :=
      beq_eq_false_iff_ne.mpr (fun e => h (k', v') (by simp) e.symm)
    rw [this]
    exact lookup_eq_none_of_keys rest key
      (fun kv hkv => h kv (by simp [hkv]))

/-- Decoding the encoder's popdefs lines extends the accumulator by exactly
the encoded entries, provided keys are lowercase words, pairwise distinct, and
absent from the accumulator. -/
theorem unpackPopGo_pack : ∀ (m acc : Defs) (idx : Nat),
    (∀ kv ∈ m, kv.1 ≠ [] ∧ ∀ c ∈ kv.1, isLowerAlpha c) →
    (m.map Prod.fst).Nodup →
    (∀ kv ∈ acc, ∀ kv' ∈ m, kv.1 ≠ kv'.1) →
    unpackPopGo acc idx (m.map (fun kv => upWord kv.1 ++ '\t' :: kv.2)) =
      .ok (acc ++ m)
  | [], acc, idx, _, _, _ => by simp [unpackPopGo]
  | (k, v) :: rest, acc, idx, hk, hnd, hdisj => by
    obtain ⟨hk0, hklow⟩ := hk (k, v) (by simp)
    rw [List.map_cons, unpackPopGo,
      splitFirstTab_append (upWord k) (upWord_no_tab hklow) v]
    have hkne : (upWord k).isEmpty = false := by
      cases hkk : upWord k with
      | nil =>
        rw [upWord] at hkk
        exact absurd (List.map_eq_nil_iff.mp hkk) hk0
      | cons a b => rfl
    simp only [hkne, Bool.false_eq_true, if_false]
    rw [lowWord_upWord k hklow]
    rw [dictUpd_fresh acc k v
      (fun kv hkv => hdisj kv hkv (k, v) (by simp))]
    rw [unpackPopGo_pack rest (acc ++ [(k, v)]) (idx + 1)
      (fun kv hkv => hk kv (by simp [hkv]))
      (by simpa using hnd.of_cons)
      ?_]
    · simp
    · intro kv hkv kv' hkv'
      rcases List.mem_append.mp hkv with hin | hin
      · exact hdisj kv hin kv' (by simp [hkv'])
      · rw [List.mem_singleton] at hin
        subst hin
        have : kv'.1 ∈ rest.map Prod.fst := List.mem_map_of_mem _ hkv'
        rw [List.map_cons] at hnd
        intro he
        rw [List.nodup_cons] at hnd
        exact hnd.1 (by rw [he]; exact this)

theorem unpackPopGo_error_iff : ∀ (ls : List Txt) (acc : Defs) (idx : Nat),
    (∃ e, unpackPopGo acc idx ls = .error e) ↔ ∃ l ∈ ls, badPop l = true
  | [], acc, idx => by simp [unpackPopGo]
  | l :: rest, acc, idx => by
    rw [unpackPopGo]
    cases hsp : splitFirstTab l with
    | none =>
      constructor
      · intro _
        exact ⟨l, by simp, by simp [badPop, hsp]⟩
      · intro _
        exact ⟨⟨idx, l⟩, rfl⟩
    | some kv =>
      obtain ⟨k, v⟩ := kv
      dsimp only
      by_cases hke : k.isEmpty = true
      · rw [if_pos hke]
        constructor
        · intro _
          exact ⟨l, by simp, by simp [badPop, hsp, hke]⟩
        · intro _
          exact ⟨⟨idx, l⟩, rfl⟩
      · rw [if_neg hke]
        rw [unpackPopGo_error_iff rest _ (idx + 1)]
        constructor
        · rintro ⟨x, hx, hb⟩
          exact ⟨x, by simp [hx], hb⟩
        · rintro ⟨x, hx, hb⟩
          rcases List.mem_cons.mp hx with rfl | hx
          · rw [badPop, hsp] at hb
            exact absurd hb (by simpa using hke)
          · exact ⟨x, hx, hb⟩

theorem unpackPopGo_error_first : ∀ (ls : List Txt) (acc : Defs) (idx : Nat)
    (e : MalformedRecord), unpackPopGo acc idx ls = .error e →
    ∃ k, e.lineNo = idx + k ∧ k < ls.length ∧ badPop (ls.getD k []) = true ∧
      (∀ j, j < k → badPop (ls.getD j []) = false) ∧ e.content = ls.getD k []
  | [], acc, idx, e => by simp [unpackPopGo]
  | l :: rest, acc, idx, e => by
    rw [unpackPopGo]
    cases hsp : splitFirstTab l with
    | none =>
      intro he
      have he' : e = ⟨idx, l⟩ := by
        cases he
        rfl
      subst he'
      exact ⟨0, by simp, by simp, by simp [badPop, hsp], by omega, by simp⟩
    | some kv =>
      obtain ⟨k, v⟩ := kv
      dsimp only
      by_cases hke : k.isEmpty = true
      · rw [if_pos hke]
        intro he
        have he' : e = ⟨idx, l⟩ := by
          cases he
          rfl
        subst he'
        exact ⟨0, by simp, by simp, by simp [badPop, hsp, hke], by omega,
          by simp⟩
      · rw [if_neg hke]
        intro he
        obtain ⟨j, h1, h2, h3, h4, h5⟩ :=
          unpackPopGo_error_first rest _ (idx + 1) e he
        refine ⟨j + 1, by omega, by simpa using h2, by simpa using h3, ?_,
          by simpa using h5⟩
        intro j' hj'
        cases j' with
        | zero => simp [badPop, hsp, by simpa using hke]
        | succ j'' =>
          simpa using h4 j'' (by omega)

theorem unpackPopGo_ok_lookup : ∀ (ls : List Txt) (acc : Defs) (idx : Nat),
    (∀ l ∈ ls, badPop l = false) →
    ∃ m, unpackPopGo acc idx ls = .ok m ∧
      ∀ key, m.lookup key =
        ((entriesOf ls).reverse.lookup key).or (acc.lookup key)
  | [], acc, idx, _ => ⟨acc, rfl, by simp [entriesOf]⟩
  | l :: rest, acc, idx, h => by
    have hbl := h l (by simp)
    cases hsp : splitFirstTab l with
    | none => rw [badPop, hsp] at hbl; simp at hbl
    | some kv =>
      obtain ⟨k, v⟩ := kv
      have hke : k.isEmpty = false := by
        rw [badPop, hsp] at hbl
        exact hbl
      obtain ⟨m, hm, hlk⟩ :=
        unpackPopGo_ok_lookup rest (dictUpd acc (lowWord k) v) (idx + 1)
          (fun x hx => h x (by simp [hx]))
      refine ⟨m, ?_, ?_⟩
      · rw [unpackPopGo, hsp]
        dsimp only
        rw [if_neg (by simp [hke])]
        exact hm
      · intro key
        rw [hlk key]
        have hent : entriesOf (l :: rest) = (lowWord k, v) :: entriesOf rest := by
          simp [entriesOf, List.filterMap_cons, hsp]
        rw [hent, List.reverse_cons, List.lookup_append]
        by_cases hkey : key = lowWord k
        · subst hkey
          rw [lookup_dictUpd_self]
          have hsing : List.lookup (lowWord k) [(lowWord k, v)] = some v := by
            simp [List.lookup]
          have hor : (some v).or (List.lookup (lowWord k) acc) = some v := rfl
          rw [hsing, Option.or_assoc, hor]
        · rw [lookup_dictUpd_other acc (lowWord k) v key hkey]
          have hsing : List.lookup key [(lowWord k, v)] = none := by
            simp [List.lookup, beq_eq_false_iff_ne.mpr hkey]
          rw [hsing, Option.or_assoc, Option.none_or]

/-! ### Helper lemmas: the editor's word list and definitions mapping -/

theorem packGo_length : ∀ (rest : List Txt) (prev : Txt) (lastC : Nat),
    (packGo prev lastC rest).length = rest.length
  | [], _, _ => rfl
  | w :: rest, prev, lastC => by
    rw [packGo, List.length_cons, List.length_cons,
      packGo_length rest w (lcp prev w)]

theorem lookup_dictDel_self : ∀ (m : Defs) (k : Txt),
    (m.map Prod.fst).Nodup → (dictDel m k).lookup k = none
  | [], _, _ => rfl
  | (k', v') :: rest, k, hnd => by
    rw [List.map_cons, List.nodup_cons] at hnd
    by_cases h : k' = k
    · rw [dictDel, if_pos h]
      subst h
      refine lookup_eq_none_of_keys rest k' ?_
      intro kv hkv he
      exact hnd.1 (List.mem_map.mpr ⟨kv, hkv, he⟩)
    · rw [dictDel, if_neg h, List.lookup]
      have hne : (k == k') = false :=
        beq_eq_false_iff_ne.mpr (fun e => h e.symm)
      rw [hne]
      exact lookup_dictDel_self rest k hnd.2

theorem lookup_dictDel_other : ∀ (m : Defs) (k key : Txt), key ≠ k →
    (dictDel m k).lookup key = m.lookup key
  | [], _, _, _ => rfl
  | (k', v') :: rest, k, key, h => by
    by_cases hk : k' = k
    · rw [dictDel, if_pos hk, List.lookup]
      have hne : (key == k') = false :=
        beq_eq_false_iff_ne.mpr (fun e => h (e.trans hk))
      rw [hne]
    · rw [dictDel, if_neg hk, List.lookup, List.lookup]
      cases hkey : (key == k') with
      | true => rfl
      | false => exact lookup_dictDel_other rest k key h

/-! ### Claim theorems -/

/-- Claim C1, counterexample: the round trip fails, exactly as the claim
states it, on the non-empty duplicate-free lowercase word list
`["abc", "abd", "ab"]`: the third word's listing line is the empty suffix with
an omitted copy count, so the encoder emits a blank line, the decoder skips
it, and the word `"ab"` is lost. -/
theorem claim1_roundtrip_counterexample :
    ([['a','b','c'], ['a','b','d'], ['a','b']] : List Txt) ≠ [] ∧
    ([['a','b','c'], ['a','b','d'], ['a','b']] : List Txt).Nodup ∧
    (∀ w ∈ ([['a','b','c'], ['a','b','d'], ['a','b']] : List Txt),
      w ≠ [] ∧ ∀ c ∈ w, isLowerAlpha c) ∧
    pack_wordlist [['a','b','c'], ['a','b','d'], ['a','b']] =
      ['a','b','c','\n','2','d'] ∧
    unpack_wordlist (pack_wordlist [['a','b','c'], ['a','b','d'], ['a','b']]) ≠
      .ok [['a','b','c'], ['a','b','d'], ['a','b']] := by decide

/-- Claim C1, amended: for every non-empty list of non-empty lowercase words
in which no word is a prefix of the word immediately before it (equivalently:
each word's longest common prefix with its predecessor is strictly shorter
than the word itself — in particular, for every strictly ascending sorted
list) and with no duplicates, decoding the wordlist encoding yields exactly
the input list; encode is deterministic, which in this pure-function
embedding is reflexivity. -/
theorem claim1_roundtrip (ws : List Txt) (hne : ws ≠ [])
    (hw : ∀ w ∈ ws, w ≠ []) (hlow : ∀ w ∈ ws, ∀ c ∈ w, isLowerAlpha c)
    (hnd : ws.Nodup)
    (hpre : List.Chain' (fun p c => lcp p c < c.length) ws) :
    unpack_wordlist (pack_wordlist ws) = .ok ws ∧
      pack_wordlist ws = pack_wordlist ws := by
  refine ⟨?_, rfl⟩
  cases ws with
  | nil => exact absurd rfl hne
  | cons w rest =>
  have hch : List.Chain (fun p c : Txt => lcp p c < c.length) w rest := hpre
  have hlw : ∀ c ∈ w, isLowerAlpha c := hlow w (by simp)
  have hwne : w ≠ [] := hw w (by simp)
  have hrlow : ∀ x ∈ rest, ∀ c ∈ x, isLowerAlpha c :=
    fun x hx => hlow x (by simp [hx])
  have hlinesne : ∀ l ∈ w :: packGo w 0 rest, l ≠ [] := by
    intro l hl
    rcases List.mem_cons.mp hl with rfl | hl
    · exact hwne
    · exact packGo_ne_nil rest w 0 hch l hl
  have hchars : ∀ l ∈ w :: packGo w 0 rest, ∀ ch ∈ l,
      ch.isDigit = true ∨ isLowerAlpha ch := by
    intro l hl
    rcases List.mem_cons.mp hl with rfl | hl
    · exact fun ch hc => Or.inr (hlw ch hc)
    · exact packGo_chars rest w 0 hrlow l hl
  have hnonl : ∀ l ∈ w :: packGo w 0 rest, '\n' ∉ l := by
    intro l hl hm
    rcases hchars l hl '\n' hm with hd | hd
    · exact ne_nl_of_isDigit hd rfl
    · exact ne_nl_of_lower hd rfl
  have hstrip : strip (joinLines (w :: packGo w 0 rest)) =
      joinLines (w :: packGo w 0 rest) := by
    apply strip_eq_self
    · intro c hc
      rw [joinLines_head? _ hwne] at hc
      exact isWs_of_lower (hlw c (List.mem_of_mem_head? hc))
    · intro c hc
      obtain ⟨l', hl1, hl2⟩ :=
        joinLines_getLast? (w :: packGo w 0 rest) (by simp) hlinesne
      rw [hl2] at hc
      have hl'mem : l' ∈ w :: packGo w 0 rest := List.mem_of_mem_getLast? hl1
      rcases hchars l' hl'mem c (List.mem_of_mem_getLast? hc) with hd | hd
      · exact isWs_of_isDigit hd
      · exact isWs_of_lower hd
  have hsplit : nonblankLines (joinLines (w :: packGo w 0 rest)) =
      w :: packGo w 0 rest := by
    rw [nonblankLines, splitNl_joinLines _ (by simp) hnonl]
    apply List.filter_eq_self.mpr
    intro l hl
    simpa using hlinesne l hl
  have hhead : ∀ c, w.head? = some c → c.isDigit = false :=
    fun c hc => isDigit_of_lower (hlw c (List.mem_of_mem_head? hc))
  have hld : lineDigits w = [] := by
    have := (@digits_split [] w (by simp) hhead).1
    rw [List.nil_append] at this
    rw [lineDigits, this]
  have heff : effCopy 0 w = 0 := by rw [effCopy, hld, if_pos rfl]
  have hbad : lineBad [] 0 w = false := by simp [lineBad, heff]
  have hsfx : lineSuffix w = w := by
    rw [lineSuffix, dropWhile_eq_self_of_head hhead]
  rw [pack_wordlist, packLines, hstrip, unpack_wordlist, hsplit, unpackGo]
  simp only [hbad, Bool.false_eq_true, if_false, laxStep]
  simp only [heff, hsfx]
  rw [unpackGo_packGo rest w 0 [w] (0 + 1) (by simp) hrlow hch]
  simp

/-- Claim C1, witness: the amended round trip at the concrete sorted list
`["ant", "cat", "cats"]`. -/
theorem claim1_roundtrip_witness :
    unpack_wordlist
        (pack_wordlist [['a','n','t'], ['c','a','t'], ['c','a','t','s']]) =
      .ok [['a','n','t'], ['c','a','t'], ['c','a','t','s']] ∧
    pack_wordlist [['a','n','t'], ['c','a','t'], ['c','a','t','s']] =
      pack_wordlist [['a','n','t'], ['c','a','t'], ['c','a','t','s']] :=
  claim1_roundtrip [['a','n','t'], ['c','a','t'], ['c','a','t','s']]
    (by decide) (by decide) (by decide) (by decide)
    (List.Chain.cons (by decide) (List.Chain.cons (by decide) List.Chain.nil))

/-- Claim C2: the wordlist decoder fails with a `MalformedListing` if and
only if some line is malformed in the running decode — its effective copy
count exceeds the previous word's length, or a nonzero count is in effect on
the first decoded word.  The characterization is stated twice, once indexed
over the decoder's non-blank lines and once over the text's raw line list
(so texts with blank lines anywhere, leading ones included, are covered:
blank lines are never malformed and do not disturb the running state).  The
reported error sits at the first malformed line, carrying that line's raw
content, its `lineNo` counting the non-blank lines before it; no partial
word list is returned (the result type is either one error or the full
list). -/
theorem claim2_decode_error_iff (text : Txt) :
    ((∃ e, unpack_wordlist text = .error e) ↔
      (∃ k, k < (nonblankLines text).length ∧
        badAt [] 0 (nonblankLines text) k = true)) ∧
    ((∃ e, unpack_wordlist text = .error e) ↔
      (∃ k, k < (splitNl text).length ∧
        badAtRaw [] 0 (splitNl text) k = true)) ∧
    (∀ e, unpack_wordlist text = .error e →
      e.lineNo < (nonblankLines text).length ∧
      badAt [] 0 (nonblankLines text) e.lineNo = true ∧
      (∀ j, j < e.lineNo → badAt [] 0 (nonblankLines text) j = false) ∧
      e.content = (nonblankLines text).getD e.lineNo []) ∧
    (∀ e, unpack_wordlist text = .error e →
      ∃ k, k < (splitNl text).length ∧
        badAtRaw [] 0 (splitNl text) k = true ∧
        (∀ j, j < k → badAtRaw [] 0 (splitNl text) j = false) ∧
        e.content = (splitNl text).getD k [] ∧
        e.lineNo =
          (((splitNl text).take k).filter (fun l => !l.isEmpty)).length) := by
  have hnb : nonblankLines text =
      (splitNl text).filter (fun l => !l.isEmpty) := rfl
  refine ⟨?_, ?_, ?_, ?_⟩
  · exact unpackGo_error_iff (nonblankLines text) [] 0 0
  · constructor
    · intro h
      apply (badAt_filter_iff (splitNl text) [] 0).mp
      rw [← hnb]
      exact (unpackGo_error_iff (nonblankLines text) [] 0 0).mp h
    · intro h
      apply (unpackGo_error_iff (nonblankLines text) [] 0 0).mpr
      rw [hnb]
      exact (badAt_filter_iff (splitNl text) [] 0).mpr h
  · intro e he
    obtain ⟨k, h1, h2, h3, h4, h5⟩ :=
      unpackGo_error_first (nonblankLines text) [] 0 0 e he
    have hk : e.lineNo = k := by omega
    rw [hk]
    exact ⟨h2, h3, h4, h5⟩
  · intro e he
    rw [unpack_wordlist, hnb] at he
    obtain ⟨k, h1, h2, h3, h4, h5⟩ :=
      unpackGo_error_first_raw (splitNl text) [] 0 0 e he
    exact ⟨k, h1, h2, h3, h4, by omega⟩

/-- Claim C2, witness: the text `"\n5x"` starts with a blank line, which the
decoder skips; the copy count 5 is then in effect on the first decoded word,
so decoding fails (at raw line index 1). -/
theorem claim2_witness :
    ∃ e, unpack_wordlist ['\n','5','x'] = .error e :=
  (claim2_decode_error_iff ['\n','5','x']).2.1.mpr
    ⟨1, by decide, by decide⟩

/-- Claim C3: the copy count of the listing line of the word at index
`i ≥ 1` is the length of the longest common prefix with the literal previous
element of the input list (`countAt`); the numeral is printed exactly when
the count differs from the preceding line's count, followed with no separator
by the word's suffix from that position; the line list has one line per word,
with the first word verbatim; in particular, a literal `'0'` is printed when
the count drops to 0 from a nonzero count. -/
theorem claim3_encoder_lines (ws : List Txt) (i : Nat) (h1 : 1 ≤ i)
    (h2 : i < ws.length) :
    (packLines ws).getD i [] =
      (if countAt ws i = countAt ws (i - 1) then []
        else toDecimal (countAt ws i)) ++
        (ws.getD i []).drop (countAt ws i) ∧
    (packLines ws).length = ws.length ∧
    (packLines ws).getD 0 [] = ws.getD 0 [] ∧
    (countAt ws i = 0 → countAt ws (i - 1) ≠ 0 →
      (packLines ws).getD i [] = '0' :: ws.getD i []) := by
  cases ws with
  | nil => simp at h2
  | cons w rest =>
  cases i with
  | zero => omega
  | succ j =>
  have hj : j < rest.length := by simpa using h2
  have hform : (packLines (w :: rest)).getD (j + 1) [] =
      (if countAt (w :: rest) (j + 1) = countAt (w :: rest) j then []
        else toDecimal (countAt (w :: rest) (j + 1))) ++
        ((w :: rest).getD (j + 1) []).drop (countAt (w :: rest) (j + 1)) := by
    rw [packLines, List.getD_cons_succ, packGo_getD rest w 0 j hj]
    cases j with
    | zero => simp [countAt]
    | succ j' => simp [countAt, List.getD_cons_succ]
  refine ⟨hform, ?_, by simp [packLines], ?_⟩
  · rw [packLines, List.length_cons, List.length_cons,
      packGo_length rest w 0]
  · intro hz hnz
    rw [hform]
    have hnz' : countAt (w :: rest) j ≠ 0 := by simpa using hnz
    rw [if_neg (by rw [hz]; exact fun e => hnz' e.symm), hz, List.drop_zero]
    rfl

/-- Claim C3, witness: the third line of the encoding of
`["cat", "cats", "dog"]`. -/
theorem claim3_witness :
    (packLines [['c','a','t'], ['c','a','t','s'], ['d','o','g']]).getD 2 [] =
      (if countAt [['c','a','t'], ['c','a','t','s'], ['d','o','g']] 2 =
          countAt [['c','a','t'], ['c','a','t','s'], ['d','o','g']] 1 then []
        else toDecimal
          (countAt [['c','a','t'], ['c','a','t','s'], ['d','o','g']] 2)) ++
        (([['c','a','t'], ['c','a','t','s'], ['d','o','g']] :
          List Txt).getD 2 []).drop
          (countAt [['c','a','t'], ['c','a','t','s'], ['d','o','g']] 2) :=
  (claim3_encoder_lines [['c','a','t'], ['c','a','t','s'], ['d','o','g']] 2
    (by decide) (by decide)).1

/-- Claim C4: the concrete scenario — `["cat", "cats", "dog"]` encodes to
`"cat\n3s\n0dog"` and that text decodes back to exactly
`["cat", "cats", "dog"]`. -/
theorem claim4_concrete :
    pack_wordlist [['c','a','t'], ['c','a','t','s'], ['d','o','g']] =
      ['c','a','t','\n','3','s','\n','0','d','o','g'] ∧
    unpack_wordlist ['c','a','t','\n','3','s','\n','0','d','o','g'] =
      .ok [['c','a','t'], ['c','a','t','s'], ['d','o','g']] := by decide

/-- Claim C5: for every mapping from non-empty lowercase words (with
pairwise-distinct keys) to definitions free of tabs and newlines, decoding
the popdefs encoding — uppercased key, one tab, the definition verbatim, one
line terminator per entry — returns exactly the mapping, keys lowercased
back. -/
theorem claim5_popdefs_roundtrip (m : Defs)
    (hk : ∀ kv ∈ m, kv.1 ≠ [] ∧ ∀ c ∈ kv.1, isLowerAlpha c)
    (hv : ∀ kv ∈ m, '\t' ∉ kv.2 ∧ '\n' ∉ kv.2)
    (hnd : (m.map Prod.fst).Nodup) :
    unpack_popdefs (pack_popdefs m) = .ok m := by
  have hmap : pack_popdefs m =
      ((m.map (fun kv => upWord kv.1 ++ '\t' :: kv.2)).map
        (fun l => l ++ ['\n'])).flatten := by
    rw [pack_popdefs, List.map_map]
    rfl
  have hnl : ∀ l ∈ m.map (fun kv => upWord kv.1 ++ '\t' :: kv.2), '\n' ∉ l := by
    intro l hl
    rw [List.mem_map] at hl
    obtain ⟨kv, hkv, rfl⟩ := hl
    intro hm'
    rcases List.mem_append.mp hm' with hin | hin
    · exact upWord_no_nl (hk kv hkv).2 hin
    · rcases List.mem_cons.mp hin with he | hin
      · exact absurd he (by decide)
      · exact (hv kv hkv).2 hin
  have hsplit : nonblankLines (pack_popdefs m) =
      m.map (fun kv => upWord kv.1 ++ '\t' :: kv.2) := by
    rw [hmap, nonblankLines, splitNl_flatten_nl _ hnl, List.filter_append]
    have h1 : (m.map (fun kv => upWord kv.1 ++ '\t' :: kv.2)).filter
        (fun l => !l.isEmpty) =
          m.map (fun kv => upWord kv.1 ++ '\t' :: kv.2) := by
      apply List.filter_eq_self.mpr
      intro l hl
      rw [List.mem_map] at hl
      obtain ⟨kv, hkv, rfl⟩ := hl
      simp
    rw [h1]
    simp
  rw [unpack_popdefs, hsplit]
  simpa using unpackPopGo_pack m [] 0 hk hnd (by simp)

/-- Claim C5, witness: the round trip at the one-entry mapping
`{"cat" ↦ "a feline"}`. -/
theorem claim5_witness :
    unpack_popdefs (pack_popdefs
        [(['c','a','t'], ['a',' ','f','e','l','i','n','e'])]) =
      .ok [(['c','a','t'], ['a',' ','f','e','l','i','n','e'])] :=
  claim5_popdefs_roundtrip [(['c','a','t'], ['a',' ','f','e','l','i','n','e'])]
    (by decide) (by decide) (by decide)

/-- Claim C6: the popdefs decoder fails with a `MalformedRecord` if and only
if some non-blank line has no tab or an empty key field, and the error it
reports is located at the first such line, carrying that line's content; no
partial mapping is returned (the result type is either one error or the full
mapping). -/
theorem claim6_popdefs_error_iff (text : Txt) :
    ((∃ e, unpack_popdefs text = .error e) ↔
      ∃ l ∈ nonblankLines text, badPop l = true) ∧
    (∀ e, unpack_popdefs text = .error e →
      e.lineNo < (nonblankLines text).length ∧
      badPop ((nonblankLines text).getD e.lineNo []) = true ∧
      (∀ j, j < e.lineNo → badPop ((nonblankLines text).getD j []) = false) ∧
      e.content = (nonblankLines text).getD e.lineNo []) := by
  constructor
  · exact unpackPopGo_error_iff (nonblankLines text) [] 0
  · intro e he
    obtain ⟨k, h1, h2, h3, h4, h5⟩ :=
      unpackPopGo_error_first (nonblankLines text) [] 0 e he
    have hk : e.lineNo = k := by omega
    rw [hk]
    exact ⟨h2, h3, h4, h5⟩

/-- Claim C6, witness: the text `"ABC"` has a line with no tab, so decoding
fails. -/
theorem claim6_witness :
    ∃ e, unpack_popdefs ['A','B','C'] = .error e :=
  (claim6_popdefs_error_iff ['A','B','C']).1.mpr
    ⟨['A','B','C'], by decide, by decide⟩

/-- Claim C7: on any popdefs text all of whose non-blank lines are
well-formed, decoding succeeds (duplicate keys are not an error) and binds
each key to the value of the last line carrying that key (after lowercasing):
the lookup in the decoded mapping agrees with the lookup in the reversed list
of the file's records. -/
theorem claim7_last_write_wins (text : Txt)
    (h : ∀ l ∈ nonblankLines text, badPop l = false) :
    ∃ m, unpack_popdefs text = .ok m ∧
      ∀ key, m.lookup key =
        (entriesOf (nonblankLines text)).reverse.lookup key := by
  obtain ⟨m, hm, hlk⟩ := unpackPopGo_ok_lookup (nonblankLines text) [] 0 h
  refine ⟨m, hm, fun key => ?_⟩
  rw [hlk key]
  simp [List.lookup]

/-- Claim C7, witness: the text `"CAT\ta\nCAT\tb"` repeats the key `CAT`;
decoding succeeds and the last value wins. -/
theorem claim7_witness :
    ∃ m, unpack_popdefs ['C','A','T','\t','a','\n','C','A','T','\t','b'] =
        .ok m ∧
      ∀ key, m.lookup key =
        (entriesOf (nonblankLines
          ['C','A','T','\t','a','\n','C','A','T','\t','b'])).reverse.lookup
          key :=
  claim7_last_write_wins ['C','A','T','\t','a','\n','C','A','T','\t','b']
    (by decide)

/-- Claim C8: encoding the empty word list and the empty mapping produces
the empty string without error, and decoding the empty string produces the
empty word list and the empty mapping rather than failing. -/
theorem claim8_empty :
    pack_wordlist [] = [] ∧ unpack_wordlist [] = .ok [] ∧
      pack_popdefs [] = [] ∧ unpack_popdefs [] = .ok [] := by decide

/-- Claim C9: the editor's word list is sorted ascending as an invariant —
sorted immediately after loading, and preserved (or re-established) by
add-word, mass add, single and mass delete, and duplicate removal, so the
binary searches those operations rely on always run on a sorted list. -/
theorem claim9_sorted_invariant :
    (∀ text ws, load_words text = .ok ws → SortedW ws) ∧
    (∀ b ws w, SortedW ws → SortedW (add_word b ws w)) ∧
    (∀ ws news, SortedW (mass_add_words ws news)) ∧
    (∀ b ws w, SortedW ws → SortedW (delete_word_list b ws w)) ∧
    (∀ ws dels, SortedW ws → SortedW (mass_delete_words ws dels)) ∧
    (∀ ws, SortedW (del_dupe_words ws)) := by
  have hsort : ∀ l : List Txt, SortedW (sortWords l) := fun l =>
    List.sorted_insertionSort (· ≤ ·) l
  have herase : ∀ (ws : List Txt) (w : Txt), SortedW ws →
      SortedW (ws.erase w) :=
    fun ws w h => List.Pairwise.sublist (List.erase_sublist w ws) h
  refine ⟨?_, ?_, ?_, ?_, ?_, ?_⟩
  · intro text ws h
    rw [load_words] at h
    cases hu : unpack_wordlist (strip text) with
    | error e =>
      rw [hu] at h
      exact absurd h (by simp [Except.map])
    | ok ws0 =>
      rw [hu] at h
      have hws : ws = sortWords ws0 := by
        have : Except.ok (sortWords ws0) =
            (Except.ok ws : Except MalformedListing (List Txt)) := h
        cases this
        rfl
      rw [hws]
      exact hsort ws0
  · intro b ws w h
    cases b with
    | true => exact hsort (ws ++ [w])
    | false => exact h
  · intro ws news
    exact hsort (ws ++ news)
  · intro b ws w h
    cases b with
    | true => exact herase ws w h
    | false => exact h
  · intro ws dels
    induction dels generalizing ws with
    | nil => exact fun h => h
    | cons d rest ih =>
      intro h
      have hstep : mass_delete_words ws (d :: rest) =
          mass_delete_words (delete_word_list d.2 ws d.1) rest := rfl
      rw [hstep]
      apply ih
      cases hd : d.2 with
      | true => exact herase ws d.1 h
      | false => exact h
  · intro ws
    exact hsort ws.dedup

/-- Claim C9, witness: adding a word to the sorted one-word list keeps it
sorted. -/
theorem claim9_witness :
    SortedW (add_word true [['c','a','t']] ['a','n','t']) :=
  claim9_sorted_invariant.2.1 true [['c','a','t']] ['a','n','t']
    (List.sorted_singleton ['c','a','t'])

/-- Claim C10: deleting a word removes at most that one word (the first
occurrence) from the word list and removes that word's definition from the
mapping when one exists; every other word and every other key is untouched;
deleting a word absent from the word list leaves the word list unchanged
while still removing an orphaned definition. -/
theorem claim10_delete_frame (st : EditorState) (w : Txt)
    (hnd : (st.defs.map Prod.fst).Nodup) :
    (w ∉ st.words → (delete_word st w).words = st.words) ∧
    (w ∈ st.words → ∃ l1 l2, w ∉ l1 ∧ st.words = l1 ++ w :: l2 ∧
      (delete_word st w).words = l1 ++ l2) ∧
    ((delete_word st w).defs.lookup w = none) ∧
    (∀ k, k ≠ w → (delete_word st w).defs.lookup k = st.defs.lookup k) := by
  refine ⟨?_, ?_, ?_, ?_⟩
  · intro h
    simp only [delete_word, if_neg h]
  · intro h
    obtain ⟨l1, l2, hnm, heq, herase⟩ := List.exists_erase_eq h
    refine ⟨l1, l2, hnm, heq, ?_⟩
    simp only [delete_word, if_pos h]
    exact herase
  · cases hlk : st.defs.lookup w with
    | none =>
      simp only [delete_word, hlk, Option.isSome_none, Bool.false_eq_true,
        if_false]
    | some v =>
      simp only [delete_word, hlk, Option.isSome_some, if_true]
      exact lookup_dictDel_self st.defs w hnd
  · intro k hk
    cases hlk : st.defs.lookup w with
    | none =>
      simp only [delete_word, hlk, Option.isSome_none, Bool.false_eq_true,
        if_false]
    | some v =>
      simp only [delete_word, hlk, Option.isSome_some, if_true]
      exact lookup_dictDel_other st.defs w k hk

/-- Claim C10, witness: deleting `"cat"` from a two-word list with one
stored definition. -/
theorem claim10_witness :
    (delete_word ⟨[['a','n','t'], ['c','a','t']],
        [(['c','a','t'], ['x'])]⟩ ['c','a','t']).defs.lookup ['c','a','t'] =
      none :=
  (claim10_delete_frame ⟨[['a','n','t'], ['c','a','t']],
    [(['c','a','t'], ['x'])]⟩ ['c','a','t'] (by decide)).2.2.1

end Bookworm
